import Mathlib

/-!
Verification of the chained hash map in `src/hash-map.js` together with the
doubly linked list that backs its buckets (`LinkedList` in `linked-list.js`,
imported by `hash-map.js`).

The shallow embedding below represents a chain (one bucket's linked list) as
the list of its `(key, value)` entries in head-to-tail order; `prev`/`next`
pointers of a node are determined by its position in that list.  JavaScript
numbers are embedded as `Nat`: every quantity the program computes (character
codes, hash codes, bucket counts, entry counts) is a non-negative integer far
below 2^53, where double arithmetic is exact.  The load-factor comparison
`length() / buckets.length >= 0.75` is embedded as the exact integer
comparison `3 * bucketCount ≤ 4 * length`, which agrees with the float
comparison for all positive bucket counts in the representable range.
Fallible steps (dereferencing a null neighbour, indexing outside the bucket
array) are embedded in `Except Unit`.
-/

namespace HashMapJS

/-- One bucket's collision list, head first.  A `LinkedListNode` holds `key`
and `value`; its `prev`/`next` links are positional in this embedding. -/
abbrev Chain (V : Type) := List (String × V)

namespace Chain

variable {V : Type}

/-- `search` from linked-list.js: walk from `firstNode` following `next`
until a node with matching key is found; `null` when the list is exhausted. -/
def search (c : Chain V) (k : String) : Option (String × V) :=
  c.find? (fun e => e.1 == k)

/-- The update half of `append` from linked-list.js: walk the chain and
overwrite the value of the first node whose key matches. -/
def updateValue : Chain V → String → V → Chain V
  | [], _, _ => []
  | e :: rest, k, v => if e.1 == k then (e.1, v) :: rest else e :: updateValue rest k v

/-- `append` from linked-list.js: if a node with the key exists, overwrite its
value in place; otherwise link a fresh node in front of `firstNode` (the scan
for an existing key is the same traversal `search` performs). -/
def append (c : Chain V) (k : String) (v : V) : Chain V :=
  if (search c k).isSome then updateValue c k v else (k, v) :: c

/-- `remove` from linked-list.js, called with the node at position `i` of the
chain (the node `search` returned).  `node.prev === null` iff `i = 0`, and
`node.next === null` iff `i` is the last position.  The code is guarded by
`if (nodeCount)`; when the sole node of a chain is removed it runs
`firstNode = node.next` (null) and then dereferences `node.next.prev`, a
TypeError, embedded as `.error ()`. -/
def removeNode (c : Chain V) (i : Nat) : Except Unit (Chain V) :=
  if c.length = 0 then .ok c
  else if i = 0 then
    if i = c.length - 1 then .error ()
    else .ok (c.drop 1)
  else if i = c.length - 1 then .ok (c.take i)
  else .ok (c.take i ++ c.drop (i + 1))

end Chain

/-- The state of `Chain.remove`'s surrounding list object for the misuse case
of C9: `nodes` is the entry sequence reachable from `firstNode`, `count` is
`nodeCount`. -/
structure ChainS (V : Type) where
  nodes : List (String × V)
  count : Nat

/-- `remove` from linked-list.js called with a detached foreign node
(`prev = null`, `next = null`) on a non-empty list: `nodeCount` is
decremented, then the `node.prev === null` branch runs
`firstNode = node.next` (null), and `node.next.prev` throws.  The `.error`
payload is the list state at the throw: no node reachable from `firstNode`
while `nodeCount` still counts the lost entries. -/
def ChainS.removeDetached {V : Type} (s : ChainS V) : Except (ChainS V) (ChainS V) :=
  if s.count = 0 then .ok s
  else .error { nodes := [], count := s.count - 1 }

/-- `defaultHashFunction` from hash-map.js: polynomial rolling hash with
multiplier 31 over the character codes, reduced `% bucketCount` at every
step. -/
def defaultHashFunction (stringAsKey : String) (bucketCount : Nat) : Nat :=
  stringAsKey.toList.foldl (fun hashCode c => (hashCode * 31 + c.toNat) % bucketCount) 0

/-- The closure state of `HashMap` from hash-map.js: the injected hash
function and the bucket array. -/
structure Table (V : Type) where
  hashFn : String → Nat → Nat
  buckets : List (Chain V)

namespace Table

variable {V : Type}

/-- `buckets.length`. -/
def bucketCount (t : Table V) : Nat := t.buckets.length

/-- `length()` from hash-map.js: the sum of every chain's node count. -/
def length (t : Table V) : Nat := (t.buckets.map List.length).sum

/-- `loadFactor()` from hash-map.js, as an exact rational. -/
def loadFactor (t : Table V) : ℚ := (t.length : ℚ) / (t.bucketCount : ℚ)

/-- `resize(bucketCount)` from hash-map.js: replace `buckets` wholesale with
an array of fresh empty chains. -/
def resize (t : Table V) (n : Nat) : Table V :=
  { t with buckets := List.replicate n [] }

/-- `clear()` from hash-map.js: clear every bucket's chain in place. -/
def clear (t : Table V) : Table V :=
  { t with buckets := t.buckets.map (fun _ => []) }

/-- `entries()` from hash-map.js: walk the buckets in index order and each
chain head-to-tail, collecting `{key, value}` pairs. -/
def entriesList (t : Table V) : List (String × V) := t.buckets.flatten

/-- `keys()` from hash-map.js. -/
def keysList (t : Table V) : List String := t.buckets.flatten.map Prod.fst

/-- `values()` from hash-map.js. -/
def valuesList (t : Table V) : List V := t.buckets.flatten.map Prod.snd

/-- `get(key)` from hash-map.js: `buckets[hashFn(key, buckets.length)]`
followed by `Chain.search`; the stored value, or null when absent.  Indexing
outside the bucket array (`undefined.search`) is a TypeError, `.error ()`. -/
def getE (t : Table V) (k : String) : Except Unit (Option V) :=
  match t.buckets.get? (t.hashFn k t.buckets.length) with
  | some c => .ok ((Chain.search c k).map Prod.snd)
  | none => .error ()

/-- `has(key)` from hash-map.js: `search(...) !== null`. -/
def hasE (t : Table V) (k : String) : Except Unit Bool :=
  match t.buckets.get? (t.hashFn k t.buckets.length) with
  | some c => .ok (Chain.search c k).isSome
  | none => .error ()

/-- The tail of `set` from hash-map.js after the resize check:
`buckets[hashFn(key, buckets.length)].append(key, value)`. -/
def appendStep (t : Table V) (k : String) (v : V) : Except Unit (Table V) :=
  match t.buckets.get? (t.hashFn k t.buckets.length) with
  | some c =>
      .ok { t with buckets := t.buckets.set (t.hashFn k t.buckets.length) (Chain.append c k v) }
  | none => .error ()

/-- `set` together with `resizeBucketsIfNeeded` from hash-map.js.  The fuel
argument bounds the recursion depth of the re-insertion pass (which calls
`set` again for every snapshotted entry); `Table.set` below supplies
`length + 1`, which the well-formedness lemmas prove sufficient, so that the
embedding agrees with the unbounded JavaScript recursion on every state the
theorems quantify over. -/
def setAux : Nat → Table V → String → V → Except Unit (Table V)
  | 0, _, _, _ => .error ()
  | fuel + 1, t, k, v =>
    if 3 * t.bucketCount ≤ 4 * t.length then
      match (t.entriesList).foldlM (fun a e => setAux fuel a e.1 e.2)
          (t.resize (2 * t.bucketCount)) with
      | .error u => .error u
      | .ok t1 => t1.appendStep k v
    else t.appendStep k v

/-- `set(key, value)` from hash-map.js: `resizeBucketsIfNeeded()`, then hash
the key against the current bucket count and append into that bucket. -/
def set (t : Table V) (k : String) (v : V) : Except Unit (Table V) :=
  setAux (t.length + 1) t k v

/-- `remove(key)` from hash-map.js: locate the bucket, `search`; when found,
splice the node out with `Chain.remove` and return true, otherwise return
false. -/
def remove (t : Table V) (k : String) : Except Unit (Bool × Table V) :=
  match t.buckets.get? (t.hashFn k t.buckets.length) with
  | none => .error ()
  | some c =>
    match Chain.search c k with
    | none => .ok (false, t)
    | some _ =>
      match Chain.removeNode c (c.findIdx (fun e => e.1 == k)) with
      | .error u => .error u
      | .ok c' =>
          .ok (true, { t with buckets := t.buckets.set (t.hashFn k t.buckets.length) c' })

end Table

/-- The table `HashMap(hashFn)` from hash-map.js returns: the constructor
body runs `resize(16)`. -/
def initTable {V : Type} (f : String → Nat → Nat) : Table V :=
  { hashFn := f, buckets := List.replicate 16 [] }

/-- One public mutating operation of the hash map. -/
inductive Op (V : Type) where
  | set (k : String) (v : V)
  | remove (k : String)
  | clear

/-- Run one public operation (the Boolean result of `remove` is dropped). -/
def applyOp {V : Type} (t : Table V) : Op V → Except Unit (Table V)
  | .set k v => t.set k v
  | .remove k => (t.remove k).map (fun r => r.2)
  | .clear => .ok t.clear

/-- Run a sequence of public operations left to right; a thrown TypeError
aborts the run. -/
def runOps {V : Type} : Table V → List (Op V) → Except Unit (Table V)
  | t, [] => .ok t
  | t, op :: ops =>
    match applyOp t op with
    | .error e => .error e
    | .ok t' => runOps t' ops

/-- The value associated with `k` after a sequence of operations, starting
from the valuation `s`: the most recent `set` for `k`, unless a `remove k` or
`clear` came later. -/
def specFrom {V : Type} (s : String → Option V) (ops : List (Op V)) (k : String) : Option V :=
  ops.foldl
    (fun acc op =>
      match op with
      | .set kp v => if kp = k then some v else acc
      | .remove kp => if kp = k then none else acc
      | .clear => none)
    (s k)

/-- The value associated with `k` after a sequence of operations on a fresh
map: the most recent `set` for `k` not followed by `remove k` or `clear`. -/
def specFun {V : Type} (ops : List (Op V)) (k : String) : Option V :=
  specFrom (fun _ => none) ops k

/-- Association-list lookup used to state what a snapshot taken by
`entries()` contains. -/
def lookupA {V : Type} (es : List (String × V)) (k : String) : Option V :=
  (es.find? (fun e => e.1 == k)).map Prod.snd

/-- Total variant of `get`: the value stored for `k` in `k`'s bucket (the
bucket read is in range in every well-formed state; see `getE_eq_getV`). -/
def Table.getV {V : Type} (t : Table V) (k : String) : Option V :=
  (Chain.search (t.buckets.getD (t.hashFn k t.buckets.length) []) k).map Prod.snd

/-- A hash function that, as the spec's §2 puts it, maps
`(key, bucket count)` to a bucket index. -/
def HashValid (f : String → Nat → Nat) : Prop :=
  ∀ k n, 0 < n → f k n < n

/-- Spec §3: every key present in the table appears in the bucket its hash
selects under the current bucket count. -/
abbrev Placed {V : Type} (t : Table V) : Prop :=
  ∀ i < t.buckets.length, ∀ e ∈ t.buckets.getD i [], t.hashFn e.1 t.buckets.length = i

/-- Spec §3: keys within a chain are unique. -/
abbrev ChainsNodup {V : Type} (t : Table V) : Prop :=
  ∀ i < t.buckets.length, ((t.buckets.getD i []).map Prod.fst).Nodup

/-- The structural part of the data-model invariant of spec §3: a valid
injected hash function, a positive bucket count, correctly placed entries,
and per-chain key uniqueness. -/
structure WFS {V : Type} (t : Table V) : Prop where
  hv : HashValid t.hashFn
  pos : 0 < t.bucketCount
  placed : Placed t
  cnd : ChainsNodup t

/-- The full data-model invariant of spec §3 for a table state: the
structural part plus the load-factor bound maintained by the pre-insertion
resize check (`4·entries ≤ 3·buckets + 4`, i.e. the factor never exceeds
0.75 by more than the single insertion just performed). -/
structure WF {V : Type} (t : Table V) : Prop where
  base : WFS t
  bound : 4 * t.length ≤ 3 * t.bucketCount + 4

/-- The table states reachable from a freshly constructed map by the public
operations (a run aborted by a TypeError produces no state). -/
inductive Reachable {V : Type} : Table V → Prop where
  | init (f : String → Nat → Nat) (hf : HashValid f) : Reachable (initTable f)
  | set (t : Table V) (k : String) (v : V) (t' : Table V) :
      Reachable t → Table.set t k v = .ok t' → Reachable t'
  | remove (t : Table V) (k : String) (b : Bool) (t' : Table V) :
      Reachable t → Table.remove t k = .ok (b, t') → Reachable t'
  | clear (t : Table V) : Reachable t → Reachable t.clear

/-- Extract the table from a successful run (fallback for the error case,
never taken on the concrete runs below). -/
def okOr {V : Type} (d : Table V) : Except Unit (Table V) → Table V
  | .ok t => t
  | .error _ => d

/-- Twelve `set`s on a fresh default table: eleven distinct single-character
keys and then `"a"`, reaching 12 entries in 16 buckets (load factor exactly
0.75, so the next `set` triggers a resize). -/
def wit4pre : Table Nat :=
  okOr (initTable defaultHashFunction)
    (runOps (initTable defaultHashFunction)
      ([("b", 1), ("c", 2), ("d", 3), ("e", 4), ("f", 5), ("g", 6), ("h", 7), ("i", 8),
         ("j", 9), ("k", 10), ("l", 11), ("a", 12)].map (fun e => Op.set e.1 e.2)))

/-- The table after the resize-triggering `set("a", 0)` on `wit4pre`. -/
def wit4post : Table Nat := okOr wit4pre (wit4pre.set "a" 0)

/-- The table after `set("a", 1)` on a fresh default table. -/
def wit5post : Table Nat :=
  okOr (initTable defaultHashFunction) ((initTable defaultHashFunction : Table Nat).set "a" 1)

/-- Eleven `set`s with distinct single-character keys on a fresh default
table: 11 entries in 16 buckets. -/
def cex6t0 : Table Nat :=
  okOr (initTable defaultHashFunction)
    (runOps (initTable defaultHashFunction)
      ([("m", 1), ("n", 2), ("o", 3), ("p", 4), ("q", 5), ("r", 6), ("s", 7), ("t", 8),
         ("u", 9), ("v", 10), ("w", 11)].map (fun e => Op.set e.1 e.2)))

/-- `cex6t0` after a first `set("a", 0)`: 12 entries, still 16 buckets. -/
def cex6t1 : Table Nat := okOr cex6t0 (cex6t0.set "a" 0)

/-- `cex6t1` after the second, identical `set("a", 0)`: the pre-insertion
check sees load factor 12/16 = 0.75 and doubles the bucket array. -/
def cex6t2 : Table Nat := okOr cex6t1 (cex6t1.set "a" 0)

/-- The table after `set("a", 1)` on a fresh default table (idempotence
witness). -/
def wit6t1 : Table Nat :=
  okOr (initTable defaultHashFunction) ((initTable defaultHashFunction : Table Nat).set "a" 1)

/-- `wit6t1` after a second identical `set("a", 1)`. -/
def wit6t2 : Table Nat := okOr wit6t1 (wit6t1.set "a" 1)

/-- The operation sequence `set("a",1); set("b",2); set("a",3)`. -/
def wit3ops : List (Op Nat) := [Op.set "a" 1, Op.set "b" 2, Op.set "a" 3]

/-- The table produced by running `wit3ops` on a fresh default table. -/
def wit3tab : Table Nat :=
  okOr (initTable defaultHashFunction) (runOps (initTable defaultHashFunction) wit3ops)

/-- The key/value pairs `("a",1), ("b",2), ("a",3)` set in order. -/
def wit7sets : List (String × Nat) := [("a", 1), ("b", 2), ("a", 3)]

/-- The table produced by setting `wit7sets` in order on a fresh default
table. -/
def wit7tab : Table Nat :=
  okOr (initTable defaultHashFunction)
    (runOps (initTable defaultHashFunction) (wit7sets.map (fun e => Op.set e.1 e.2)))

/-! ### Lemmas about one chain -/

namespace Chain

variable {V : Type} {c rest : Chain V} {k kp : String} {v : V} {e a : String × V}

theorem search_nil : search ([] : Chain V) k = none := rfl

theorem search_cons : search (a :: c) k = if a.1 = k then some a else search c k := by
  by_cases h : a.1 = k
  · simp [search, List.find?_cons, h]
  · simp [search, List.find?_cons, h, beq_eq_false_iff_ne.mpr h]

theorem search_eq_none_iff : search c k = none ↔ ∀ e ∈ c, e.1 ≠ k := by
  simp [search, List.find?_eq_none]

theorem search_eq_some (h : search c k = some e) : e ∈ c ∧ e.1 = k :=
  ⟨List.mem_of_find?_eq_some h, by simpa using List.find?_some h⟩

theorem updateValue_cons :
    updateValue (a :: rest) k v = if a.1 = k then (a.1, v) :: rest else a :: updateValue rest k v := by
  by_cases h : a.1 = k
  · simp [updateValue, h]
  · simp [updateValue, h, beq_eq_false_iff_ne.mpr h]

theorem append_of_none (h : search c k = none) : append c k v = (k, v) :: c := by
  rw [append, h]; rfl

theorem append_of_some (h : search c k = some e) : append c k v = updateValue c k v := by
  rw [append, h]; rfl

theorem search_updateValue_self (h : search c k = some e) :
    search (updateValue c k v) k = some (k, v) := by
  induction c with
  | nil => simp [search] at h
  | cons a rest ih =>
    rw [search_cons] at h
    rw [updateValue_cons]
    by_cases ha : a.1 = k
    · rw [if_pos ha, search_cons]
      simp [ha]
    · rw [if_neg ha, search_cons, if_neg ha]
      exact ih (by rwa [if_neg ha] at h)

theorem search_updateValue_ne (hne : kp ≠ k) :
    search (updateValue c k v) kp = search c kp := by
  induction c with
  | nil => rfl
  | cons a rest ih =>
    rw [updateValue_cons]
    by_cases ha : a.1 = k
    · have hne' : ¬ a.1 = kp := by rw [ha]; exact fun h => hne h.symm
      rw [if_pos ha, search_cons, search_cons, if_neg hne', if_neg hne']
    · rw [if_neg ha, search_cons, search_cons]
      by_cases ha' : a.1 = kp
      · rw [if_pos ha', if_pos ha']
      · rw [if_neg ha', if_neg ha', ih]

theorem search_append_self : search (append c k v) k = some (k, v) := by
  rcases h : search c k with _ | e
  · rw [append_of_none h, search_cons, if_pos rfl]
  · rw [append_of_some h]
    exact search_updateValue_self h

theorem search_append_ne (hne : kp ≠ k) :
    search (append c k v) kp = search c kp := by
  rcases h : search c k with _ | e
  · rw [append_of_none h, search_cons, if_neg (fun h' => hne h'.symm)]
  · rw [append_of_some h]
    exact search_updateValue_ne hne

theorem length_updateValue : (updateValue c k v).length = c.length := by
  induction c with
  | nil => rfl
  | cons a rest ih =>
    rw [updateValue_cons]
    by_cases ha : a.1 = k
    · rw [if_pos ha]
      simp
    · rw [if_neg ha]
      simp [ih]

theorem length_append_some (h : search c k = some e) :
    (append c k v).length = c.length := by
  rw [append_of_some h, length_updateValue]

theorem length_append_none (h : search c k = none) :
    (append c k v).length = c.length + 1 := by
  rw [append_of_none h, List.length_cons]

theorem keys_updateValue : (updateValue c k v).map Prod.fst = c.map Prod.fst := by
  induction c with
  | nil => rfl
  | cons a rest ih =>
    rw [updateValue_cons]
    by_cases ha : a.1 = k
    · rw [if_pos ha]
      simp
    · rw [if_neg ha]
      simp [ih]

theorem key_mem_append (h : e ∈ append c k v) : e.1 = k ∨ e.1 ∈ c.map Prod.fst := by
  rcases hs : search c k with _ | ep
  · rw [append_of_none hs] at h
    rcases List.mem_cons.mp h with h' | h'
    · exact Or.inl (by rw [h'])
    · exact Or.inr (List.mem_map_of_mem _ h')
  · rw [append_of_some hs] at h
    have hm : e.1 ∈ (updateValue c k v).map Prod.fst := List.mem_map_of_mem _ h
    rw [keys_updateValue] at hm
    exact Or.inr hm

theorem nodup_keys_append (h : (c.map Prod.fst).Nodup) :
    ((append c k v).map Prod.fst).Nodup := by
  rcases hs : search c k with _ | ep
  · rw [append_of_none hs, List.map_cons]
    refine List.Nodup.cons (fun hk => ?_) h
    rcases List.mem_map.mp hk with ⟨e2, he2, hk2⟩
    exact (search_eq_none_iff.mp hs e2 he2) hk2
  · rw [append_of_some hs, keys_updateValue]
    exact h

theorem updateValue_eq_self (h : search c k = some e) (hv : e.2 = v) :
    updateValue c k v = c := by
  induction c with
  | nil => simp [search] at h
  | cons a rest ih =>
    rw [search_cons] at h
    rw [updateValue_cons]
    by_cases ha : a.1 = k
    · rw [if_pos ha] at h ⊢
      have hea : e = a := by injection h with h'; exact h'.symm
      rw [← hv, hea, Prod.mk.eta]
    · rw [if_neg ha] at h ⊢
      rw [ih h]

/-! ### Lemmas about chain removal -/

theorem removeNode_sole (h : c.length = 1) : removeNode c 0 = .error () := by
  rw [removeNode, if_neg (by omega), if_pos rfl, if_pos (by omega)]

theorem removeNode_ok (h2 : 2 ≤ c.length) {i : Nat} (hi : i < c.length) :
    removeNode c i = .ok (c.eraseIdx i) := by
  rw [removeNode, if_neg (by omega : ¬ c.length = 0)]
  by_cases hi0 : i = 0
  · subst hi0
    rw [if_pos rfl, if_neg (by omega)]
    rw [List.eraseIdx_eq_take_drop_succ]
    simp
  · rw [if_neg hi0]
    by_cases hil : i = c.length - 1
    · rw [if_pos hil]
      rw [List.eraseIdx_eq_take_drop_succ, List.drop_eq_nil_of_le (by omega), List.append_nil]
    · rw [if_neg hil, List.eraseIdx_eq_take_drop_succ]

theorem eraseIdx_findIdx_eq_eraseP {α : Type} (p : α → Bool) (l : List α) :
    l.eraseIdx (l.findIdx p) = l.eraseP p := by
  induction l with
  | nil => rfl
  | cons a l ih =>
    rw [List.findIdx_cons, List.eraseP_cons]
    rcases h : p a with _ | _
    · simp only [h, cond_false, List.eraseIdx_cons_succ, ih]
    · simp only [h, cond_true, List.eraseIdx_cons_zero]

theorem search_eraseP_self (hnd : (c.map Prod.fst).Nodup) :
    search (c.eraseP (fun e => e.1 == k)) k = none := by
  induction c with
  | nil => rfl
  | cons a rest ih =>
    rw [List.map_cons, List.nodup_cons] at hnd
    obtain ⟨hnotin, hndrest⟩ := hnd
    by_cases ha : a.1 = k
    · rw [List.eraseP_cons, beq_iff_eq.mpr ha, cond_true]
      rw [search_eq_none_iff]
      intro e he hek
      exact hnotin (by rw [ha, ← hek]; exact List.mem_map_of_mem _ he)
    · rw [List.eraseP_cons, beq_eq_false_iff_ne.mpr ha, cond_false, search_cons, if_neg ha]
      exact ih hndrest

theorem search_eraseP_ne (hne : kp ≠ k) :
    search (c.eraseP (fun e => e.1 == k)) kp = search c kp := by
  induction c with
  | nil => rfl
  | cons a rest ih =>
    by_cases ha : a.1 = k
    · rw [List.eraseP_cons, beq_iff_eq.mpr ha, cond_true, search_cons,
        if_neg (by rw [ha]; exact fun h => hne h.symm)]
    · rw [List.eraseP_cons, beq_eq_false_iff_ne.mpr ha, cond_false, search_cons, search_cons]
      by_cases ha' : a.1 = kp
      · rw [if_pos ha', if_pos ha']
      · rw [if_neg ha', if_neg ha', ih]

theorem length_eraseP_of_found (h : search c k = some e) :
    (c.eraseP (fun e => e.1 == k)).length + 1 = c.length := by
  induction c with
  | nil => simp [search] at h
  | cons a rest ih =>
    rw [search_cons] at h
    by_cases ha : a.1 = k
    · rw [List.eraseP_cons, beq_iff_eq.mpr ha, cond_true, List.length_cons]
    · rw [if_neg ha] at h
      rw [List.eraseP_cons, beq_eq_false_iff_ne.mpr ha, cond_false, List.length_cons,
        List.length_cons, ih h]

theorem nodup_keys_eraseP (hnd : (c.map Prod.fst).Nodup) :
    ((c.eraseP (fun e => e.1 == k)).map Prod.fst).Nodup :=
  List.Nodup.sublist (List.Sublist.map _ (List.eraseP_sublist c)) hnd

theorem mem_of_mem_eraseP (h : e ∈ c.eraseP (fun e => e.1 == k)) : e ∈ c :=
  (List.eraseP_sublist c).subset h

theorem findIdx_lt_of_search (h : search c k = some e) :
    c.findIdx (fun x => x.1 == k) < c.length := by
  apply List.findIdx_lt_length_of_exists
  exact ⟨e, (search_eq_some h).1, beq_iff_eq.mpr (search_eq_some h).2⟩

end Chain

/-! ### Generic list helpers -/

theorem sum_map_length_set {α : Type} (B : List (List α)) (i : Nat) (c : List α)
    (hi : i < B.length) :
    ((B.set i c).map List.length).sum + (B.getD i []).length
      = (B.map List.length).sum + c.length := by
  induction B generalizing i with
  | nil => simp at hi
  | cons b B ih =>
    cases i with
    | zero =>
      rw [List.set_cons_zero, List.getD_cons_zero]
      simp only [List.map_cons, List.sum_cons]
      omega
    | succ i =>
      rw [List.set_cons_succ, List.getD_cons_succ]
      simp only [List.map_cons, List.sum_cons]
      have := ih i (by simpa using hi)
      omega

theorem getD_set_self {α : Type} {B : List (List α)} {i : Nat} {c : List α}
    (hi : i < B.length) : (B.set i c).getD i [] = c := by
  rw [List.getD_eq_getElem _ _ (by simpa using hi)]
  exact List.getElem_set_self _

theorem getD_set_ne {α : Type} {B : List (List α)} {i j : Nat} {c : List α}
    (hne : j ≠ i) : (B.set i c).getD j [] = B.getD j [] := by
  rw [List.getD_eq_getElem?_getD, List.getD_eq_getElem?_getD,
    List.getElem?_set_ne (fun h => hne h.symm)]

theorem get?_eq_some_getD {α : Type} {B : List (List α)} {i : Nat} (hi : i < B.length) :
    B.get? i = some (B.getD i []) := by
  rw [List.get?_eq_getElem?, List.getElem?_eq_getElem hi, List.getD_eq_getElem _ _ hi]

theorem set_self_of_get? {α : Type} {B : List α} {i : Nat} {c : α}
    (h : B.get? i = some c) : B.set i c = B := by
  induction B generalizing i with
  | nil => simp at h
  | cons b B ih =>
    cases i with
    | zero =>
      simp only [List.get?] at h
      injection h with h
      rw [List.set_cons_zero, h]
    | succ i =>
      rw [List.get?_cons_succ] at h
      rw [List.set_cons_succ, ih h]

theorem getD_replicate_nil {α : Type} {n i : Nat} :
    (List.replicate n ([] : List α)).getD i [] = [] := by
  rw [List.getD_eq_getElem?_getD, List.getElem?_replicate]
  by_cases h : i < n <;> simp [h]

theorem flatten_replicate_nil {α : Type} {n : Nat} :
    (List.replicate n ([] : List α)).flatten = [] := by
  induction n with
  | zero => rfl
  | succ n ih => rw [List.replicate_succ, List.flatten_cons, ih]; rfl

/-! ### Table-level lemmas -/

namespace Table

variable {V : Type} {t : Table V} {k kq : String} {v : V}

theorem length_clear : t.clear.length = 0 := by
  rw [clear, length]
  apply List.sum_eq_zero
  intro x hx
  rcases List.mem_map.mp hx with ⟨b, hb, hbx⟩
  rcases List.mem_map.mp hb with ⟨b0, _, hb0⟩
  rw [← hbx, ← hb0]
  rfl

theorem bucketCount_clear : t.clear.bucketCount = t.bucketCount := by
  rw [clear, bucketCount, bucketCount]
  exact List.length_map _ _

theorem keysList_clear : t.clear.keysList = [] := by
  rw [clear, keysList]
  have h : (t.buckets.map (fun _ => ([] : Chain V))).flatten = [] := by
    induction t.buckets with
    | nil => rfl
    | cons b B ih => rw [List.map_cons, List.flatten_cons, ih]; rfl
  rw [h]
  rfl

theorem getD_clear {i : Nat} : (t.clear.buckets).getD i [] = [] := by
  rw [clear]
  rw [List.getD_eq_getElem?_getD]
  rcases h : (t.buckets.map (fun _ => ([] : Chain V)))[i]? with _ | c
  · rfl
  · rcases List.getElem?_eq_some_iff.mp h with ⟨hlt, hc⟩
    rw [List.getElem_map] at hc
    simp [← hc]

theorem getV_clear : t.clear.getV k = none := by
  rw [getV, getD_clear]
  rfl

theorem bucketCount_resize {n : Nat} : (t.resize n).bucketCount = n := by
  rw [resize, bucketCount]
  exact List.length_replicate n []

theorem length_resize {n : Nat} : (t.resize n).length = 0 := by
  rw [resize, length]
  apply List.sum_eq_zero
  intro x hx
  rcases List.mem_map.mp hx with ⟨b, hb, hbx⟩
  rw [List.eq_of_mem_replicate hb] at hbx
  exact hbx.symm

theorem getV_resize {n : Nat} : (t.resize n).getV k = none := by
  rw [getV, resize]
  rw [getD_replicate_nil]
  rfl

theorem placed_resize {n : Nat} : Placed (t.resize n) := by
  intro i hi e he
  rw [resize] at he
  rw [getD_replicate_nil] at he
  cases he

theorem cnd_resize {n : Nat} : ChainsNodup (t.resize n) := by
  intro i hi
  rw [resize, getD_replicate_nil]
  exact List.nodup_nil

theorem entriesList_resize {n : Nat} : (t.resize n).entriesList = [] := by
  rw [resize, entriesList]
  exact flatten_replicate_nil

theorem getE_eq_getV (hv : HashValid t.hashFn) (pos : 0 < t.bucketCount) :
    t.getE k = .ok (t.getV k) := by
  have hlt : t.hashFn k t.buckets.length < t.buckets.length := hv k _ pos
  unfold getE
  rw [get?_eq_some_getD hlt]
  rfl

theorem hasE_eq (hv : HashValid t.hashFn) (pos : 0 < t.bucketCount) :
    t.hasE k = .ok (t.getV k).isSome := by
  have hlt : t.hashFn k t.buckets.length < t.buckets.length := hv k _ pos
  have hred : t.hasE k
      = .ok (Chain.search (t.buckets.getD (t.hashFn k t.buckets.length) []) k).isSome := by
    unfold hasE
    rw [get?_eq_some_getD hlt]
  rw [hred, getV]
  rcases h : Chain.search (t.buckets.getD (t.hashFn k t.buckets.length) []) k with _ | e <;> rfl

theorem appendStep_ok (hv : HashValid t.hashFn) (pos : 0 < t.bucketCount)
    (hpl : Placed t) (hcn : ChainsNodup t) (k : String) (v : V) :
    ∃ tp, t.appendStep k v = .ok tp ∧
      tp.hashFn = t.hashFn ∧
      tp.bucketCount = t.bucketCount ∧
      Placed tp ∧ ChainsNodup tp ∧
      (∀ kq, tp.getV kq = if kq = k then some v else t.getV kq) ∧
      tp.length = t.length + (if (t.getV k).isSome then 0 else 1) := by
  have hlt : t.hashFn k t.buckets.length < t.buckets.length := hv k _ pos
  refine ⟨{ t with buckets := t.buckets.set (t.hashFn k t.buckets.length) (Chain.append (t.buckets.getD (t.hashFn k t.buckets.length) []) k v) }, ?_, rfl, ?_, ?_, ?_, ?_, ?_⟩
  · unfold appendStep
    rw [get?_eq_some_getD hlt]
  · rw [bucketCount, bucketCount]
    exact List.length_set _ _ _
  · intro i hi e he
    dsimp only at hi he ⊢
    rw [List.length_set] at hi ⊢
    by_cases hih : i = t.hashFn k t.buckets.length
    · subst hih
      rw [getD_set_self hlt] at he
      rcases Chain.key_mem_append he with hek | hmem
      · rw [hek]
      · rcases List.mem_map.mp hmem with ⟨e0, he0, he0k⟩
        rw [← he0k]
        exact hpl _ hlt e0 he0
    · rw [getD_set_ne hih] at he
      exact hpl i hi e he
  · intro i hi
    dsimp only at hi ⊢
    rw [List.length_set] at hi
    by_cases hih : i = t.hashFn k t.buckets.length
    · subst hih
      rw [getD_set_self hlt]
      exact Chain.nodup_keys_append (hcn _ hlt)
    · rw [getD_set_ne hih]
      exact hcn i hi
  · intro kq
    rw [getV, getV]
    dsimp only
    rw [List.length_set]
    by_cases hkq : kq = k
    · subst hkq
      rw [if_pos rfl, getD_set_self hlt, Chain.search_append_self]
      rfl
    · rw [if_neg hkq]
      by_cases hih : t.hashFn kq t.buckets.length = t.hashFn k t.buckets.length
      · rw [hih, getD_set_self hlt, Chain.search_append_ne hkq]
      · rw [getD_set_ne hih]
  · have hsum := sum_map_length_set t.buckets (t.hashFn k t.buckets.length)
      (Chain.append (t.buckets.getD (t.hashFn k t.buckets.length) []) k v) hlt
    rw [length, length]
    dsimp only
    rcases hs : Chain.search (t.buckets.getD (t.hashFn k t.buckets.length) []) k with _ | e
    · rw [Chain.length_append_none hs] at hsum
      have hgv : (t.getV k).isSome = false := by rw [getV, hs]; rfl
      simp only [hgv, Bool.false_eq_true, if_false]
      omega
    · rw [Chain.length_append_some hs] at hsum
      have hgv : (t.getV k).isSome = true := by rw [getV, hs]; rfl
      simp only [hgv, if_true]
      omega

end Table

/-! ### Snapshot lookup lemmas -/

variable {V : Type} {kq : String}

theorem lookupA_cons {e : String × V} {es : List (String × V)} :
    lookupA (e :: es) kq = if e.1 = kq then some e.2 else lookupA es kq := by
  show (Chain.search (e :: es) kq).map Prod.snd = _
  rw [Chain.search_cons]
  by_cases h : e.1 = kq
  · rw [if_pos h, if_pos h]
    rfl
  · rw [if_neg h, if_neg h]
    rfl

theorem lookupA_eq_none {es : List (String × V)} (h : kq ∉ es.map Prod.fst) :
    lookupA es kq = none := by
  show (Chain.search es kq).map Prod.snd = none
  rw [Chain.search_eq_none_iff.mpr]
  · rfl
  · intro e he hek
    exact h (hek ▸ List.mem_map_of_mem _ he)

namespace Table

variable {t : Table V} {k : String} {v : V}

theorem keysList_nodup (hpl : Placed t) (hcn : ChainsNodup t) : t.keysList.Nodup := by
  rw [keysList, List.map_flatten, List.nodup_flatten]
  constructor
  · intro l hl
    rcases List.mem_iff_getElem.mp hl with ⟨i, hi, hli⟩
    rw [List.getElem_map] at hli
    rw [List.length_map] at hi
    rw [← hli]
    have hni := hcn i hi
    rwa [List.getD_eq_getElem _ _ hi] at hni
  · rw [List.pairwise_iff_getElem]
    intro i j hi hj hij
    rw [List.length_map] at hi hj
    intro a hai haj
    rw [List.getElem_map] at hai haj
    rcases List.mem_map.mp hai with ⟨e1, he1, he1a⟩
    rcases List.mem_map.mp haj with ⟨e2, he2, he2a⟩
    have h1 := hpl i hi e1 (by rw [List.getD_eq_getElem _ _ hi]; exact he1)
    have h2 := hpl j hj e2 (by rw [List.getD_eq_getElem _ _ hj]; exact he2)
    rw [he1a] at h1
    rw [he2a] at h2
    omega

theorem entries_keys_nodup (hpl : Placed t) (hcn : ChainsNodup t) :
    (t.entriesList.map Prod.fst).Nodup :=
  keysList_nodup hpl hcn

theorem length_entriesList : t.entriesList.length = t.length := by
  rw [entriesList, length, List.length_flatten]

theorem lookupA_entriesList (hv : HashValid t.hashFn) (pos : 0 < t.bucketCount)
    (hpl : Placed t) (kq : String) :
    lookupA t.entriesList kq = t.getV kq := by
  have hlt : t.hashFn kq t.buckets.length < t.buckets.length := hv kq _ pos
  have hdec : t.buckets = t.buckets.take (t.hashFn kq t.buckets.length) ++ t.buckets.getD (t.hashFn kq t.buckets.length) [] :: t.buckets.drop (t.hashFn kq t.buckets.length + 1) := by
    conv_lhs => rw [← List.take_append_drop (t.hashFn kq t.buckets.length) t.buckets]
    rw [List.drop_eq_getElem_cons hlt, List.getD_eq_getElem _ _ hlt]
  have hpre : ∀ e ∈ (t.buckets.take (t.hashFn kq t.buckets.length)).flatten,
      ¬ (e.1 == kq) = true := by
    intro e he hbeq
    rcases List.mem_flatten.mp he with ⟨c, hc, hec⟩
    rcases List.mem_iff_getElem.mp hc with ⟨j, hj, hjc⟩
    have hjb : j < t.hashFn kq t.buckets.length ∧ j < t.buckets.length := by
      rw [List.length_take] at hj
      omega
    have hcj : t.buckets[j] = c := by rw [← hjc, List.getElem_take]
    have hr := hpl j hjb.2 e (by rw [List.getD_eq_getElem _ _ hjb.2, hcj]; exact hec)
    rw [beq_iff_eq.mp hbeq] at hr
    omega
  have hpost : ∀ e ∈ (t.buckets.drop (t.hashFn kq t.buckets.length + 1)).flatten,
      ¬ (e.1 == kq) = true := by
    intro e he hbeq
    rcases List.mem_flatten.mp he with ⟨c, hc, hec⟩
    rcases List.mem_iff_getElem.mp hc with ⟨j, hj, hjc⟩
    have hjb : t.hashFn kq t.buckets.length + 1 + j < t.buckets.length := by
      rw [List.length_drop] at hj
      omega
    have hcj : t.buckets[t.hashFn kq t.buckets.length + 1 + j] = c := by
      rw [← hjc, List.getElem_drop]
    have hr := hpl _ hjb e (by rw [List.getD_eq_getElem _ _ hjb, hcj]; exact hec)
    rw [beq_iff_eq.mp hbeq] at hr
    omega
  rw [entriesList]
  conv_lhs => rw [hdec]
  rw [List.flatten_append, List.flatten_cons, lookupA, List.find?_append, List.find?_append,
    List.find?_eq_none.mpr hpre, List.find?_eq_none.mpr hpost, Option.none_or, Option.or_none]
  rfl

/-! ### The `set` operation on well-formed tables -/

theorem setAux_succ_pos {fuel : Nat} (h : 3 * t.bucketCount ≤ 4 * t.length) (k : String) (v : V) :
    setAux (fuel + 1) t k v =
      match (t.entriesList).foldlM (fun a e => setAux fuel a e.1 e.2)
          (t.resize (2 * t.bucketCount)) with
      | .error u => .error u
      | .ok t1 => t1.appendStep k v := by
  rw [setAux, if_pos h]

theorem setAux_succ_neg {fuel : Nat} (h : ¬ 3 * t.bucketCount ≤ 4 * t.length) (k : String) (v : V) :
    setAux (fuel + 1) t k v = t.appendStep k v := by
  rw [setAux, if_neg h]

theorem reinsert_ok (fuel : Nat) (hfuel : 1 ≤ fuel) (es : List (String × V)) :
    ∀ t0 : Table V, WFS t0 →
      (∀ e ∈ es, t0.getV e.1 = none) →
      (es.map Prod.fst).Nodup →
      4 * (t0.length + es.length) ≤ 3 * t0.bucketCount + 3 →
      ∃ t1, es.foldlM (fun a e => setAux fuel a e.1 e.2) t0 = .ok t1 ∧
        t1.hashFn = t0.hashFn ∧ t1.bucketCount = t0.bucketCount ∧ WFS t1 ∧
        t1.length = t0.length + es.length ∧
        ∀ kq, t1.getV kq = (lookupA es kq).or (t0.getV kq) := by
  induction es with
  | nil =>
    intro t0 hw _ _ _
    refine ⟨t0, rfl, rfl, rfl, hw, by simp, fun kq => ?_⟩
    simp [lookupA]
  | cons e es ih =>
    intro t0 hw hfresh hnd hbound
    obtain ⟨fuel', rfl⟩ : ∃ f, fuel = f + 1 := ⟨fuel - 1, by omega⟩
    have hnt : ¬ 3 * t0.bucketCount ≤ 4 * t0.length := by
      rw [List.length_cons] at hbound
      omega
    obtain ⟨tp, happ, hfn, hbc, hpl, hcn, hget, hlen⟩ :=
      appendStep_ok hw.hv hw.pos hw.placed hw.cnd e.1 e.2
    have hstep : setAux (fuel' + 1) t0 e.1 e.2 = .ok tp := by
      rw [setAux_succ_neg hnt, happ]
    have hfold1 : (e :: es).foldlM (fun a e => setAux (fuel' + 1) a e.1 e.2) t0
        = es.foldlM (fun a e => setAux (fuel' + 1) a e.1 e.2) tp := by
      rw [List.foldlM_cons, hstep]
      rfl
    have hkey0 : t0.getV e.1 = none := hfresh e (List.mem_cons_self e es)
    have hlenp : tp.length = t0.length + 1 := by
      rw [hlen, hkey0]
      rfl
    rw [List.map_cons, List.nodup_cons] at hnd
    obtain ⟨hnotin, hndrest⟩ := hnd
    have hfresh' : ∀ e' ∈ es, tp.getV e'.1 = none := by
      intro e' he'
      rw [hget e'.1, if_neg (fun hk => hnotin (by rw [← hk]; exact List.mem_map_of_mem _ he'))]
      exact hfresh e' (List.mem_cons_of_mem e he')
    have hbound' : 4 * (tp.length + es.length) ≤ 3 * tp.bucketCount + 3 := by
      rw [hlenp, hbc]
      rw [List.length_cons] at hbound
      omega
    obtain ⟨t1, hfold2, hfn2, hbc2, hw1, hlen1, hget1⟩ :=
      ih tp ⟨hfn ▸ hw.hv, hbc ▸ hw.pos, hpl, hcn⟩ hfresh' hndrest hbound'
    refine ⟨t1, by rw [hfold1]; exact hfold2, hfn2.trans hfn, hbc2.trans hbc, hw1, ?_, fun kq => ?_⟩
    · rw [hlen1, hlenp, List.length_cons]
      omega
    · rw [hget1 kq, hget kq, lookupA_cons]
      by_cases hkq : kq = e.1
      · rw [if_pos hkq, if_pos hkq.symm]
        rw [lookupA_eq_none (by rw [hkq]; exact hnotin), Option.none_or, Option.or_some]
      · rw [if_neg hkq, if_neg (fun hk => hkq hk.symm)]

theorem set_ok {t : Table V} (hw : WF t) (k : String) (v : V) :
    ∃ t', t.set k v = .ok t' ∧ WF t' ∧ t'.hashFn = t.hashFn ∧
      t'.bucketCount
        = (if 3 * t.bucketCount ≤ 4 * t.length then 2 * t.bucketCount else t.bucketCount) ∧
      (∀ kq, t'.getV kq = if kq = k then some v else t.getV kq) ∧
      t'.length = t.length + (if (t.getV k).isSome then 0 else 1) := by
  obtain ⟨hws, hbound⟩ := hw
  by_cases htr : 3 * t.bucketCount ≤ 4 * t.length
  · have hn1 : 1 ≤ t.length := by
      have := hws.pos
      rw [bucketCount] at *
      omega
    have hres : WFS (t.resize (2 * t.bucketCount)) := by
      refine ⟨hws.hv, ?_, placed_resize, cnd_resize⟩
      rw [bucketCount_resize]
      have := hws.pos
      omega
    have hfresh : ∀ e ∈ t.entriesList, (t.resize (2 * t.bucketCount)).getV e.1 = none :=
      fun e _ => getV_resize
    have hnd : (t.entriesList.map Prod.fst).Nodup := entries_keys_nodup hws.placed hws.cnd
    have hboundr : 4 * ((t.resize (2 * t.bucketCount)).length + t.entriesList.length)
        ≤ 3 * (t.resize (2 * t.bucketCount)).bucketCount + 3 := by
      rw [length_resize, bucketCount_resize, length_entriesList]
      have := hws.pos
      omega
    obtain ⟨t1, hfold, hfn1, hbc1, hw1, hlen1, hget1⟩ :=
      reinsert_ok t.length hn1 t.entriesList (t.resize (2 * t.bucketCount)) hres hfresh hnd hboundr
    have hget1' : ∀ kq, t1.getV kq = t.getV kq := by
      intro kq
      rw [hget1 kq, getV_resize, Option.or_none, lookupA_entriesList hws.hv hws.pos hws.placed]
    obtain ⟨tp, happ, hfn2, hbc2, hpl2, hcn2, hget2, hlen2⟩ :=
      appendStep_ok hw1.hv hw1.pos hw1.placed hw1.cnd k v
    have hseteq : t.set k v = .ok tp := by
      rw [set, setAux_succ_pos htr, hfold]
      exact happ
    have hbcp : tp.bucketCount = 2 * t.bucketCount :=
      hbc2.trans (hbc1.trans bucketCount_resize)
    have hlenp : tp.length = t.length + (if (t.getV k).isSome then 0 else 1) := by
      rw [hlen2, hlen1, length_resize, length_entriesList, Nat.zero_add, hget1' k]
    refine ⟨tp, hseteq, ⟨⟨?_, ?_, hpl2, hcn2⟩, ?_⟩, (hfn2.trans hfn1).trans rfl,
      by rw [hbcp, if_pos htr], ?_, hlenp⟩
    · rw [hfn2]
      exact hw1.hv
    · rw [hbc2]
      exact hw1.pos
    · rw [hbcp]
      have hle : tp.length ≤ t.length + 1 := by
        rw [hlenp]
        split <;> omega
      have := hws.pos
      rw [bucketCount] at *
      omega
    · intro kq
      rw [hget2 kq]
      by_cases hkq : kq = k
      · rw [if_pos hkq, if_pos hkq]
      · rw [if_neg hkq, if_neg hkq, hget1' kq]
  · obtain ⟨tp, happ, hfn2, hbc2, hpl2, hcn2, hget2, hlen2⟩ :=
      appendStep_ok hws.hv hws.pos hws.placed hws.cnd k v
    have hseteq : t.set k v = .ok tp := by
      rw [set, setAux_succ_neg htr]
      exact happ
    refine ⟨tp, hseteq, ⟨⟨?_, ?_, hpl2, hcn2⟩, ?_⟩, hfn2, by rw [hbc2, if_neg htr], hget2, hlen2⟩
    · rw [hfn2]
      exact hws.hv
    · rw [hbc2]
      exact hws.pos
    · have hle : tp.length ≤ t.length + 1 := by
        rw [hlen2]
        split <;> omega
      rw [hbc2]
      omega

theorem remove_ok {t : Table V} (hw : WFS t) {k : String} {b : Bool} {t' : Table V}
    (hr : t.remove k = .ok (b, t')) :
    t'.hashFn = t.hashFn ∧ t'.bucketCount = t.bucketCount ∧ Placed t' ∧ ChainsNodup t' ∧
      b = (t.getV k).isSome ∧
      (∀ kq, t'.getV kq = if kq = k then none else t.getV kq) ∧
      t'.length + (if b then 1 else 0) = t.length := by
  have hlt : t.hashFn k t.buckets.length < t.buckets.length := hw.hv k _ hw.pos
  have hred : t.remove k
      = (match Chain.search (t.buckets.getD (t.hashFn k t.buckets.length) []) k with
        | none => .ok (false, t)
        | some _ =>
          match Chain.removeNode (t.buckets.getD (t.hashFn k t.buckets.length) [])
              ((t.buckets.getD (t.hashFn k t.buckets.length) []).findIdx (fun e => e.1 == k)) with
          | .error u => .error u
          | .ok c' => .ok (true, { t with buckets := t.buckets.set (t.hashFn k t.buckets.length) c' })) := by
    unfold remove
    rw [get?_eq_some_getD hlt]
  rw [hred] at hr
  rcases hs : Chain.search (t.buckets.getD (t.hashFn k t.buckets.length) []) k with _ | e
  · rw [hs] at hr
    have hr2 : (Except.ok (false, t) : Except Unit (Bool × Table V)) = .ok (b, t') := hr
    injection hr2 with hr3
    injection hr3 with hb ht
    subst hb
    subst ht
    refine ⟨rfl, rfl, hw.placed, hw.cnd, ?_, fun kq => ?_, by simp⟩
    · rw [getV, hs]
      rfl
    · by_cases hkq : kq = k
      · subst hkq
        rw [if_pos rfl, getV, hs]
        rfl
      · rw [if_neg hkq]
  · rw [hs] at hr
    have hcpos : 0 < (t.buckets.getD (t.hashFn k t.buckets.length) []).length := by
      rcases (Chain.search_eq_some hs).1 with hmem
      exact List.length_pos_of_mem hmem
    by_cases h2 : 2 ≤ (t.buckets.getD (t.hashFn k t.buckets.length) []).length
    · rw [Chain.removeNode_ok h2 (Chain.findIdx_lt_of_search hs),
        Chain.eraseIdx_findIdx_eq_eraseP] at hr
      have hr2 : (Except.ok (true, { t with buckets := t.buckets.set (t.hashFn k t.buckets.length) ((t.buckets.getD (t.hashFn k t.buckets.length) []).eraseP (fun e => e.1 == k)) }) : Except Unit (Bool × Table V)) = .ok (b, t') := hr
      injection hr2 with hr3
      injection hr3 with hb ht
      subst hb
      subst ht
      have hcnd := hw.cnd _ hlt
      refine ⟨rfl, ?_, ?_, ?_, ?_, fun kq => ?_, ?_⟩
      · rw [bucketCount, bucketCount]
        exact List.length_set _ _ _
      · intro i hi e2 he2
        dsimp only at hi he2 ⊢
        rw [List.length_set] at hi ⊢
        by_cases hih : i = t.hashFn k t.buckets.length
        · subst hih
          rw [getD_set_self hlt] at he2
          exact hw.placed _ hlt e2 (Chain.mem_of_mem_eraseP he2)
        · rw [getD_set_ne hih] at he2
          exact hw.placed i hi e2 he2
      · intro i hi
        dsimp only at hi ⊢
        rw [List.length_set] at hi
        by_cases hih : i = t.hashFn k t.buckets.length
        · subst hih
          rw [getD_set_self hlt]
          exact Chain.nodup_keys_eraseP hcnd
        · rw [getD_set_ne hih]
          exact hw.cnd i hi
      · rw [getV, hs]
        rfl
      · rw [getV, getV]
        dsimp only
        rw [List.length_set]
        by_cases hkq : kq = k
        · subst hkq
          rw [if_pos rfl, getD_set_self hlt, Chain.search_eraseP_self hcnd]
          rfl
        · rw [if_neg hkq]
          by_cases hih : t.hashFn kq t.buckets.length = t.hashFn k t.buckets.length
          · rw [hih, getD_set_self hlt, Chain.search_eraseP_ne hkq]
          · rw [getD_set_ne hih]
      · have hsum := sum_map_length_set t.buckets (t.hashFn k t.buckets.length)
          ((t.buckets.getD (t.hashFn k t.buckets.length) []).eraseP (fun e => e.1 == k)) hlt
        have hlep := Chain.length_eraseP_of_found hs
        rw [length, length]
        dsimp only
        rw [if_pos rfl]
        omega
    · have h1 : (t.buckets.getD (t.hashFn k t.buckets.length) []).length = 1 := by omega
      have hidx : (t.buckets.getD (t.hashFn k t.buckets.length) []).findIdx
          (fun e => e.1 == k) = 0 := by
        have := Chain.findIdx_lt_of_search hs
        omega
      rw [hidx, Chain.removeNode_sole h1] at hr
      have hr2 : (Except.error () : Except Unit (Bool × Table V)) = .ok (b, t') := hr
      cases hr2

theorem wfs_clear {t : Table V} (hw : WFS t) : WFS t.clear := by
  refine ⟨hw.hv, ?_, ?_, ?_⟩
  · rw [bucketCount_clear]
    exact hw.pos
  · intro i hi e he
    rw [getD_clear] at he
    cases he
  · intro i hi
    rw [getD_clear]
    exact List.nodup_nil

theorem wf_clear {t : Table V} (hw : WF t) : WF t.clear := by
  refine ⟨wfs_clear hw.base, ?_⟩
  rw [length_clear, bucketCount_clear]
  have := hw.base.pos
  omega

end Table

theorem initTable_eq_resize {f : String → Nat → Nat} :
    (initTable f : Table V) = Table.resize { hashFn := f, buckets := [] } 16 := rfl

theorem bucketCount_init {f : String → Nat → Nat} :
    (initTable f : Table V).bucketCount = 16 := by
  rw [initTable_eq_resize, Table.bucketCount_resize]

theorem length_init {f : String → Nat → Nat} : (initTable f : Table V).length = 0 := by
  rw [initTable_eq_resize, Table.length_resize]

theorem getV_init {f : String → Nat → Nat} {k : String} :
    (initTable f : Table V).getV k = none := by
  rw [initTable_eq_resize, Table.getV_resize]

theorem wf_init {f : String → Nat → Nat} (hf : HashValid f) : WF (initTable f : Table V) := by
  refine ⟨⟨hf, ?_, ?_, ?_⟩, ?_⟩
  · rw [bucketCount_init]
    omega
  · rw [initTable_eq_resize]
    exact Table.placed_resize
  · rw [initTable_eq_resize]
    exact Table.cnd_resize
  · rw [length_init, bucketCount_init]
    omega

/-! ### Traces of public operations -/

theorem specFrom_nil {s : String → Option V} : specFrom s [] kq = s kq := rfl

theorem specFrom_cons {s : String → Option V} {op : Op V} {ops : List (Op V)} :
    specFrom s (op :: ops) kq =
      specFrom
        (fun kq2 =>
          match op with
          | .set kp v => if kp = kq2 then some v else s kq2
          | .remove kp => if kp = kq2 then none else s kq2
          | .clear => none)
        ops kq := by
  rw [specFrom, specFrom, List.foldl_cons]

theorem specFrom_congr {s1 s2 : String → Option V} {ops : List (Op V)}
    (h : s1 kq = s2 kq) : specFrom s1 ops kq = specFrom s2 ops kq := by
  rw [specFrom, specFrom, h]

theorem runOps_ok (ops : List (Op V)) :
    ∀ t : Table V, WF t → ∀ t', runOps t ops = .ok t' →
      WF t' ∧ ∀ kq, t'.getV kq = specFrom t.getV ops kq := by
  induction ops with
  | nil =>
    intro t hw t' h
    have h2 : (Except.ok t : Except Unit (Table V)) = .ok t' := h
    injection h2 with h3
    subst h3
    exact ⟨hw, fun kq => rfl⟩
  | cons op ops ih =>
    intro t hw t' h
    cases op with
    | set k v =>
      obtain ⟨t1, hset, hw1, _, _, hget1, _⟩ := Table.set_ok hw k v
      rw [runOps, show applyOp t (Op.set k v) = t.set k v from rfl, hset] at h
      have h2 : runOps t1 ops = .ok t' := h
      obtain ⟨hw2, hspec⟩ := ih t1 hw1 t' h2
      refine ⟨hw2, fun kq => ?_⟩
      rw [hspec kq, specFrom_cons]
      apply specFrom_congr
      show t1.getV kq = if k = kq then some v else t.getV kq
      rw [hget1 kq]
      by_cases hkq : kq = k
      · rw [if_pos hkq, if_pos hkq.symm]
      · rw [if_neg hkq, if_neg (fun u => hkq u.symm)]
    | remove k =>
      rcases hrem : t.remove k with u | pair
      · rw [runOps, show applyOp t (Op.remove k) = (t.remove k).map (fun r => r.2) from rfl,
          hrem] at h
        have h2 : (Except.error u : Except Unit (Table V)) = .ok t' := h
        cases h2
      · obtain ⟨b, t1⟩ := pair
        obtain ⟨hfn1, hbc1, hpl1, hcn1, hb1, hget1, hlen1⟩ := Table.remove_ok hw.base hrem
        rw [runOps, show applyOp t (Op.remove k) = (t.remove k).map (fun r => r.2) from rfl,
          hrem] at h
        have h2 : runOps t1 ops = .ok t' := h
        have hw1 : WF t1 := by
          refine ⟨⟨?_, ?_, hpl1, hcn1⟩, ?_⟩
          · rw [hfn1]
            exact hw.base.hv
          · rw [hbc1]
            exact hw.base.pos
          · have := hw.bound
            rw [hbc1]
            rcases b with _ | _ <;> omega
        obtain ⟨hw2, hspec⟩ := ih t1 hw1 t' h2
        refine ⟨hw2, fun kq => ?_⟩
        rw [hspec kq, specFrom_cons]
        apply specFrom_congr
        show t1.getV kq = if k = kq then none else t.getV kq
        rw [hget1 kq]
        by_cases hkq : kq = k
        · rw [if_pos hkq, if_pos hkq.symm]
        · rw [if_neg hkq, if_neg (fun u2 => hkq u2.symm)]
    | clear =>
      rw [runOps, show applyOp t (Op.clear : Op V) = .ok t.clear from rfl] at h
      have h2 : runOps t.clear ops = .ok t' := h
      obtain ⟨hw2, hspec⟩ := ih t.clear (Table.wf_clear hw) t' h2
      refine ⟨hw2, fun kq => ?_⟩
      rw [hspec kq, specFrom_cons]
      apply specFrom_congr
      show t.clear.getV kq = none
      exact Table.getV_clear

theorem reachable_wf {t : Table V} (hr : Reachable t) : WF t ∧ 16 ≤ t.bucketCount := by
  induction hr with
  | init f hf =>
    refine ⟨wf_init hf, ?_⟩
    rw [bucketCount_init]
  | set t k v t' _ hset ih =>
    obtain ⟨t1, hset1, hw1, _, hbc1, _, _⟩ := Table.set_ok ih.1 k v
    rw [hset1] at hset
    injection hset with he
    subst he
    refine ⟨hw1, ?_⟩
    rw [hbc1]
    have := ih.2
    split <;> omega
  | remove t k b t' _ hrem ih =>
    obtain ⟨hfn1, hbc1, hpl1, hcn1, _, _, hlen1⟩ := Table.remove_ok ih.1.base hrem
    refine ⟨⟨⟨?_, ?_, hpl1, hcn1⟩, ?_⟩, ?_⟩
    · rw [hfn1]
      exact ih.1.base.hv
    · rw [hbc1]
      exact ih.1.base.pos
    · have := ih.1.bound
      rw [hbc1]
      rcases b with _ | _ <;> omega
    · rw [hbc1]
      exact ih.2
  | clear t _ ih =>
    refine ⟨Table.wf_clear ih.1, ?_⟩
    rw [Table.bucketCount_clear]
    exact ih.2

/-! ### The default hash function -/

theorem defaultHashFunction_lt (s : String) {n : Nat} (hn : 0 < n) :
    defaultHashFunction s n < n := by
  rw [defaultHashFunction]
  have hf : ∀ (l : List Char) (acc : Nat), acc < n →
      l.foldl (fun hashCode c => (hashCode * 31 + c.toNat) % n) acc < n := by
    intro l
    induction l with
    | nil => exact fun acc h => h
    | cons ch l ih => exact fun acc h => ih _ (Nat.mod_lt _ hn)
  exact hf _ 0 hn

theorem defaultHashFunction_valid : HashValid defaultHashFunction :=
  fun k _ hn => defaultHashFunction_lt k hn

/-! ### Replaying a list of set operations -/

theorem runSets_total (L : List (String × V)) :
    ∀ u : Table V, WF u → ∃ u2, runOps u (L.map (fun e => Op.set e.1 e.2)) = .ok u2 := by
  induction L with
  | nil => exact fun u _ => ⟨u, rfl⟩
  | cons e L ih =>
    intro u hw
    obtain ⟨u1, hset, hw1, _, _, _, _⟩ := Table.set_ok hw e.1 e.2
    obtain ⟨u2, hrun⟩ := ih u1 hw1
    refine ⟨u2, ?_⟩
    rw [List.map_cons, runOps, show applyOp u (Op.set e.1 e.2) = u.set e.1 e.2 from rfl, hset]
    exact hrun

theorem specFrom_sets_nodup (L : List (String × V)) :
    ∀ base : String → Option V, (L.map Prod.fst).Nodup → ∀ kq,
      specFrom base (L.map (fun e => Op.set e.1 e.2)) kq = (lookupA L kq).or (base kq) := by
  induction L with
  | nil =>
    intro base _ kq
    rw [List.map_nil, specFrom_nil]
    simp [lookupA]
  | cons e L ih =>
    intro base hnd kq
    rw [List.map_cons, List.nodup_cons] at hnd
    obtain ⟨hnotin, hndL⟩ := hnd
    rw [List.map_cons, specFrom_cons, ih _ hndL kq]
    show (lookupA L kq).or (if e.1 = kq then some e.2 else base kq)
      = (lookupA (e :: L) kq).or (base kq)
    rw [lookupA_cons]
    by_cases hkq : e.1 = kq
    · rw [if_pos hkq, if_pos hkq,
        lookupA_eq_none (by rw [← hkq]; exact hnotin), Option.none_or, Option.or_some]
    · rw [if_neg hkq, if_neg hkq]

/-! ### The claims -/

/-- C1: the spec requires that removing the sole entry of a chain clears both
`head` and `tail` to null and completes without dereferencing a null
neighbour.  The code does not: on the one-entry chain `[("a", 1)]`,
`Chain.remove` applied to that entry takes the `node.prev === null` branch,
sets `firstNode` to null and then dereferences `node.next.prev` — a
TypeError (the spec itself flags this as a latent bug the implementation must
not reproduce). -/
theorem claim_C1_single_entry_remove_throws :
    Chain.removeNode [(("a" : String), (1 : Nat))] 0 = .error () := rfl

/-- C2: the spec says `remove(key)` returns true and decrements `length()`
when the key is present, false otherwise, in both cases without raising an
error.  The code instead throws whenever the found key is the sole entry of
its bucket chain: on a fresh default table, `set("a", 1)` followed by
`remove("a")` evaluates to a TypeError rather than `true`. -/
theorem claim_C2_remove_present_key_throws :
    ((initTable defaultHashFunction : Table Nat).set "a" 1 >>= fun t => t.remove "a")
      = .error () := rfl

/-- C8: after `clear()`, `length()` is 0 and `keys()` is the empty sequence,
while the bucket count equals its value from before the call (chains are
emptied in place, never shrunk or replaced). -/
theorem claim_C8_clear_empties_and_keeps_buckets {V : Type} (t : Table V) :
    t.clear.length = 0 ∧ t.clear.keysList = [] ∧ t.clear.bucketCount = t.bucketCount :=
  ⟨Table.length_clear, Table.keysList_clear, Table.bucketCount_clear⟩

/-- C9: the spec (§7) requires both misuse cases to fail fast rather than
corrupt chain links silently; the code has no such guards.  Calling
`Chain.remove` with a detached foreign node on a two-entry list first
decrements `nodeCount` and nulls `firstNode` (losing both entries) and only
then throws — the error state carries `count = 1` with no reachable node.
And `resize` accepts a non-positive bucket count without any check, leaving
an empty bucket array (the constructor exposes no bucket-count parameter to
validate at all). -/
theorem claim_C9_no_fail_fast_guards :
    ChainS.removeDetached { nodes := [(("a" : String), (1 : Nat)), ("b", 2)], count := 2 }
        = .error { nodes := [], count := 1 } ∧
      (Table.resize (initTable defaultHashFunction : Table Nat) 0).buckets.length = 0 :=
  ⟨rfl, rfl⟩

/-- C10: for every string key and every positive bucket count `n`,
`defaultHashFunction` returns a value strictly below `n` (and 0 on the empty
string), so the bucket-array read `buckets[hashFn(key, buckets.length)]`
performed by `set`, `get`, `has` and `remove` is in bounds on every table
with a positive bucket count that uses the default hash function. -/
theorem claim_C10_default_hash_in_bounds (s : String) (n : Nat) (hn : 0 < n)
    (t : Table Nat) (ht : t.hashFn = defaultHashFunction) (hb : t.buckets.length = n) :
    defaultHashFunction s n < n ∧ defaultHashFunction "" n = 0 ∧
      ∃ c, t.buckets.get? (t.hashFn s t.buckets.length) = some c := by
  refine ⟨defaultHashFunction_lt s hn, rfl, ?_⟩
  have hlt : t.hashFn s t.buckets.length < t.buckets.length := by
    rw [ht, hb]
    exact defaultHashFunction_lt s hn
  exact ⟨_, get?_eq_some_getD hlt⟩

/-- Witness for C10 at the concrete input `"abc"`, `n = 16`, on a fresh
default table. -/
theorem claim_C10_witness :
    defaultHashFunction "abc" 16 < 16 ∧ defaultHashFunction "" 16 = 0 ∧
      ∃ c, (initTable defaultHashFunction : Table Nat).buckets.get?
        ((initTable defaultHashFunction : Table Nat).hashFn "abc"
          (initTable defaultHashFunction : Table Nat).buckets.length) = some c :=
  claim_C10_default_hash_in_bounds "abc" 16 (by decide) (initTable defaultHashFunction) rfl rfl

/-- C3: for every sequence of public operations that completes without a
TypeError from a freshly constructed table, `get(key)` returns the value of
the most recent `set` for that key unless a `remove(key)` or `clear()` came
later (in which case it returns null), `has(key)` mirrors presence, and both
return without throwing. -/
theorem claim_C3_get_has_follow_most_recent_set {V : Type} (f : String → Nat → Nat)
    (hf : HashValid f) (ops : List (Op V)) (t : Table V)
    (hrun : runOps (initTable f) ops = .ok t) (k : String) :
    t.getE k = .ok (specFun ops k) ∧ t.hasE k = .ok (specFun ops k).isSome := by
  obtain ⟨hw, hspec⟩ := runOps_ok ops (initTable f) (wf_init hf) t hrun
  have hg : t.getV k = specFun ops k := by
    rw [hspec k, specFun]
    exact specFrom_congr getV_init
  constructor
  · rw [Table.getE_eq_getV hw.base.hv hw.base.pos, hg]
  · rw [Table.hasE_eq hw.base.hv hw.base.pos, hg]

/-- Witness for C3 on the trace `set("a",1); set("b",2); set("a",3)`:
`get("a")` yields the most recent value 3. -/
theorem claim_C3_witness :
    wit3tab.getE "a" = .ok (specFun wit3ops "a") ∧
      wit3tab.hasE "a" = .ok (specFun wit3ops "a").isSome :=
  claim_C3_get_has_follow_most_recent_set defaultHashFunction defaultHashFunction_valid
    wit3ops wit3tab (by rfl) "a"

/-- C4: from any table state satisfying the spec §3 data-model invariant, a
`set` that triggers a resize (load factor at least 0.75 on entry) returns
with the bucket count exactly doubled; every key other than the one being set
is still retrievable via `get` with its previous value, and the set key maps
to the new value. -/
theorem claim_C4_resize_preserves_entries {V : Type} (t : Table V) (hw : WF t)
    (k : String) (v : V) (t2 : Table V)
    (htr : 3 * t.bucketCount ≤ 4 * t.length) (hset : t.set k v = .ok t2) :
    t2.bucketCount = 2 * t.bucketCount ∧
      (∀ kq w, kq ≠ k → t.getE kq = .ok (some w) → t2.getE kq = .ok (some w)) ∧
      t2.getE k = .ok (some v) := by
  obtain ⟨t1, hset1, hw1, _, hbc1, hget1, _⟩ := Table.set_ok hw k v
  rw [hset1] at hset
  injection hset with he
  subst he
  refine ⟨by rw [hbc1, if_pos htr], ?_, ?_⟩
  · intro kq w hne hgw
    rw [Table.getE_eq_getV hw.base.hv hw.base.pos] at hgw
    injection hgw with hgw2
    rw [Table.getE_eq_getV hw1.base.hv hw1.base.pos, hget1 kq, if_neg hne, hgw2]
  · rw [Table.getE_eq_getV hw1.base.hv hw1.base.pos, hget1 k, if_pos rfl]

/-- Witness for C4: twelve entries in sixteen buckets (load factor 0.75);
`set("a", 0)` doubles the bucket count to 32 and `"b"` keeps its value. -/
theorem claim_C4_witness :
    wit4post.bucketCount = 2 * wit4pre.bucketCount ∧
      wit4post.getE "b" = .ok (some 1) ∧ wit4post.getE "a" = .ok (some 0) := by
  have h := claim_C4_resize_preserves_entries wit4pre
    ⟨⟨defaultHashFunction_valid, by decide, by decide, by decide⟩, by decide⟩
    "a" 0 wit4post (by decide) (by rfl)
  exact ⟨h.1, h.2.1 "b" 1 (by decide) (by rfl), h.2.2⟩

/-- C5: in the code, `set` runs the resize check (and any resize) before the
key's bucket index is computed by `appendStep`; consequently, after any
successful `set` from a reachable state, the load factor is below 0.75 up to
the single insertion the `set` just performed: `4·(length−1) < 3·bucketCount`
holds, i.e. `(length()−1) / bucketCount < 0.75`. -/
theorem claim_C5_load_factor_after_set {V : Type} (t : Table V) (k : String) (v : V)
    (t2 : Table V) (hr : Reachable t) (hset : t.set k v = .ok t2) :
    4 * t2.length ≤ 3 * t2.bucketCount + 3 ∧
      ((t2.length : ℚ) - 1) / (t2.bucketCount : ℚ) < 3 / 4 := by
  obtain ⟨hw, h16⟩ := reachable_wf hr
  obtain ⟨t1, hset1, hw1, _, hbc1, _, hlen1⟩ := Table.set_ok hw k v
  rw [hset1] at hset
  injection hset with he
  subst he
  have hdle : t1.length ≤ t.length + 1 := by
    rw [hlen1]
    split <;> omega
  have hb := hw.bound
  have hint : 4 * t1.length ≤ 3 * t1.bucketCount + 3 := by
    by_cases htr : 3 * t.bucketCount ≤ 4 * t.length
    · have hbc : t1.bucketCount = 2 * t.bucketCount := by rw [hbc1, if_pos htr]
      rw [hbc]
      omega
    · have hbc : t1.bucketCount = t.bucketCount := by rw [hbc1, if_neg htr]
      rw [hbc]
      omega
  refine ⟨hint, ?_⟩
  have hm : 0 < t1.bucketCount := by
    rw [hbc1]
    have := hw.base.pos
    split <;> omega
  have hmq : (0 : ℚ) < (t1.bucketCount : ℚ) := by exact_mod_cast hm
  rw [div_lt_iff₀ hmq]
  have hcast : (4 : ℚ) * (t1.length : ℚ) ≤ 3 * (t1.bucketCount : ℚ) + 3 := by
    exact_mod_cast hint
  linarith

/-- Witness for C5: the first `set` on a fresh default table leaves 1 entry
in 16 buckets, and `(1−1)/16 < 3/4`. -/
theorem claim_C5_witness :
    4 * wit5post.length ≤ 3 * wit5post.bucketCount + 3 ∧
      ((wit5post.length : ℚ) - 1) / (wit5post.bucketCount : ℚ) < 3 / 4 :=
  claim_C5_load_factor_after_set (initTable defaultHashFunction) "a" 1 wit5post
    (Reachable.init defaultHashFunction defaultHashFunction_valid) (by rfl)

/-- C6 counterexample: the claim says a second identical `set(k, v)` is a
no-op on the table's structure.  Starting from a reachable table with 11
entries, `set("a", 0)` makes 12 entries in 16 buckets (load factor exactly
0.75); the second, identical `set("a", 0)` then triggers the pre-insertion
resize: the bucket array doubles from 16 to 32, so the second call is not a
structural no-op (though `length()` stays 12). -/
theorem claim_C6_counterexample :
    cex6t0.set "a" 0 = .ok cex6t1 ∧ cex6t1.set "a" 0 = .ok cex6t2 ∧
      cex6t1.length = 12 ∧ cex6t2.length = 12 ∧
      cex6t1.bucketCount = 16 ∧ cex6t2.bucketCount = 32 ∧
      cex6t2.buckets ≠ cex6t1.buckets := by
  refine ⟨rfl, rfl, rfl, rfl, rfl, rfl, fun h => ?_⟩
  exact absurd (congrArg List.length h) (by decide)

/-- C6 amended: from any table state satisfying the spec §3 data-model
invariant, calling `set(k, v)` a second time immediately after `set(k, v)`
leaves `length()` unchanged; and whenever the second call does not trigger
the resize check (load factor below 0.75 after the first call) it is a
structural no-op — the table is left exactly as it was.  (The only deviation
from the original claim: if the first `set` left the load factor at 0.75 or
above, the second call doubles the bucket array before updating the
already-equal value, so the structure does change.) -/
theorem claim_C6_amended {V : Type} (t : Table V) (hw : WF t) (k : String) (v : V)
    (t1 t2 : Table V) (h1 : t.set k v = .ok t1) (h2 : t1.set k v = .ok t2) :
    t2.length = t1.length ∧ (¬ 3 * t1.bucketCount ≤ 4 * t1.length → t2 = t1) := by
  obtain ⟨t1', hset1, hw1, _, _, hget1, _⟩ := Table.set_ok hw k v
  rw [hset1] at h1
  injection h1 with he
  subst he
  obtain ⟨t2', hset2, hw2, _, _, hget2, hlen2⟩ := Table.set_ok hw1 k v
  rw [hset2] at h2
  injection h2 with he2
  subst he2
  have hk1 : t1'.getV k = some v := by rw [hget1 k, if_pos rfl]
  constructor
  · rw [hlen2, hk1]
    rfl
  · intro hnt
    have hlt : t1'.hashFn k t1'.buckets.length < t1'.buckets.length :=
      hw1.base.hv k _ hw1.base.pos
    have happ : t1'.set k v = t1'.appendStep k v := by
      rw [Table.set, Table.setAux_succ_neg hnt]
    rcases hse : Chain.search (t1'.buckets.getD (t1'.hashFn k t1'.buckets.length) []) k with _ | e
    · rw [Table.getV, hse] at hk1
      simp at hk1
    · have hv2 : e.2 = v := by
        rw [Table.getV, hse] at hk1
        simpa using hk1
      have hupd : Chain.append (t1'.buckets.getD (t1'.hashFn k t1'.buckets.length) []) k v
          = t1'.buckets.getD (t1'.hashFn k t1'.buckets.length) [] := by
        rw [Chain.append_of_some hse]
        exact Chain.updateValue_eq_self hse hv2
      have happ2 : t1'.appendStep k v = .ok { t1' with buckets := t1'.buckets.set (t1'.hashFn k t1'.buckets.length) (Chain.append (t1'.buckets.getD (t1'.hashFn k t1'.buckets.length) []) k v) } := by
        unfold Table.appendStep
        rw [get?_eq_some_getD hlt]
      rw [hupd, set_self_of_get? (get?_eq_some_getD hlt)] at happ2
      have happ3 : t1'.appendStep k v = .ok t1' := happ2
      rw [happ, happ3] at hset2
      injection hset2 with he3
      exact he3.symm

/-- Witness for C6 (amended): two identical `set("a", 1)` calls on a fresh
default table; the second triggers no resize and changes nothing. -/
theorem claim_C6_witness :
    wit6t2.length = wit6t1.length ∧
      (¬ 3 * wit6t1.bucketCount ≤ 4 * wit6t1.length → wit6t2 = wit6t1) :=
  claim_C6_amended (initTable defaultHashFunction) (wf_init defaultHashFunction_valid)
    "a" 1 wit6t1 wit6t2 (by rfl) (by rfl)

/-- C7: for any sequence of `set` operations on a fresh table, replaying the
pairs returned by `entries()` via fresh `set` calls into a new table — with
any positive bucket count and any hash function that yields bucket indices —
produces a map associating the same values to the same keys as the
original. -/
theorem claim_C7_entries_roundtrip {V : Type} (f g : String → Nat → Nat)
    (hf : HashValid f) (hg : HashValid g) (M : Nat) (hM : 0 < M)
    (ops : List (String × V)) (t : Table V)
    (hrun : runOps (initTable f) (ops.map (fun e => Op.set e.1 e.2)) = .ok t) :
    ∃ u, runOps { hashFn := g, buckets := List.replicate M [] }
        ((t.entriesList).map (fun e => Op.set e.1 e.2)) = .ok u ∧
      ∀ kq, u.getE kq = t.getE kq := by
  obtain ⟨hwt, _⟩ := runOps_ok _ (initTable f) (wf_init hf) t hrun
  have hwu0 : WF ({ hashFn := g, buckets := List.replicate M [] } : Table V) := by
    refine ⟨⟨hg, ?_, ?_, ?_⟩, ?_⟩
    · show 0 < (Table.resize { hashFn := g, buckets := [] } M : Table V).bucketCount
      rw [Table.bucketCount_resize]
      exact hM
    · show Placed (Table.resize { hashFn := g, buckets := ([] : List (Chain V)) } M)
      exact Table.placed_resize
    · show ChainsNodup (Table.resize { hashFn := g, buckets := ([] : List (Chain V)) } M)
      exact Table.cnd_resize
    · show 4 * (Table.resize { hashFn := g, buckets := [] } M : Table V).length
        ≤ 3 * (Table.resize { hashFn := g, buckets := [] } M : Table V).bucketCount + 4
      rw [Table.length_resize, Table.bucketCount_resize]
      omega
  obtain ⟨u, hrep⟩ := runSets_total t.entriesList _ hwu0
  obtain ⟨hwu, hspec⟩ := runOps_ok _ _ hwu0 u hrep
  refine ⟨u, hrep, fun kq => ?_⟩
  have hfresh : ({ hashFn := g, buckets := List.replicate M [] } : Table V).getV kq = none := by
    show (Table.resize { hashFn := g, buckets := ([] : List (Chain V)) } M).getV kq = none
    exact Table.getV_resize
  rw [Table.getE_eq_getV hwu.base.hv hwu.base.pos,
    Table.getE_eq_getV hwt.base.hv hwt.base.pos, hspec kq,
    specFrom_sets_nodup t.entriesList _ (Table.entries_keys_nodup hwt.base.placed hwt.base.cnd) kq,
    hfresh, Option.or_none,
    Table.lookupA_entriesList hwt.base.hv hwt.base.pos hwt.base.placed]

/-- Witness for C7: the trace `set("a",1); set("b",2); set("a",3)` replayed
from `entries()` into a fresh 7-bucket table yields the same associations. -/
theorem claim_C7_witness :
    ∃ u, runOps { hashFn := defaultHashFunction, buckets := List.replicate 7 [] }
        ((wit7tab.entriesList).map (fun e => Op.set e.1 e.2)) = .ok u ∧
      ∀ kq, u.getE kq = wit7tab.getE kq :=
  claim_C7_entries_roundtrip defaultHashFunction defaultHashFunction
    defaultHashFunction_valid defaultHashFunction_valid 7 (by decide) wit7sets wit7tab (by rfl)

end HashMapJS
